import Mathlib

/-!
BEKK estimation engine: a shallow embedding of the core numerical routines of
the bekk repository (bekk.py, param_generic.py, utils.py) together with proofs
about the covariance filter, the likelihood evaluator, the stationarity
constraint, the Cholesky-based derivation of the C matrix, the fixed-point
solver for the unconditional variance, and the objective function handed to
the optimizer.

Scalars are modelled by exact arithmetic: a generic linearly ordered field
(instantiated at ℚ for executable checks) for the purely algebraic routines,
and ℝ (with eigenvalues in ℂ) for the spectral and Cholesky routines.
-/

open Matrix Polynomial

/-- Square matrices of size n over the scalar type K: the parameter and
covariance matrices of the BEKK model. -/
abbrev Mat (K : Type) (n : ℕ) : Type :=
  Matrix (Fin n) (Fin n) K

/-- Outer product of an innovation vector with itself: the matrix
innov2[i] = innov[i, None, :] * innov[i, :, None] built in utils.filter_var. -/
def outerProd {K : Type} [CommRing K] {n : ℕ} (u : Fin n → K) : Mat K n :=
  fun i j => u i * u j

/-- Iterated loop body of utils.filter_var: after k iterations the slots
1, ..., k of the covariance buffer have been overwritten, slot i + 1 with
CCᵀ + A innov2[i] Aᵀ + B H[i] Bᵀ where H[i] is the current content of slot i;
all other slots keep their initial contents. -/
def filterAux {K : Type} [CommRing K] {n : ℕ} (cc amat bmat : Mat K n)
    (innov : ℕ → Fin n → K) (hvar : ℕ → Mat K n) : ℕ → ℕ → Mat K n
  | 0 => hvar
  | i + 1 =>
    Function.update (filterAux cc amat bmat innov hvar i) (i + 1)
      (cc + amat * outerProd (innov i) * amatᵀ
        + bmat * filterAux cc amat bmat innov hvar i i * bmatᵀ)

/-- Embedding of utils.filter_var. Given the buffer hvar (whose slot 0 holds
the initial covariance supplied by the caller), the innovation series and the
parameter matrices, the loop for i in range(1, nobs) writes slot i with
cc_mat + a_mat innov2[i-1] a_matᵀ + b_mat hvar[i-1] b_matᵀ, where
cc_mat = c_mat c_matᵀ is computed once up front. -/
def filter_var {K : Type} [CommRing K] {n : ℕ} (nobs : ℕ) (hvar : ℕ → Mat K n)
    (innov : ℕ → Fin n → K) (c_mat a_mat b_mat : Mat K n) : ℕ → Mat K n :=
  filterAux (c_mat * c_matᵀ) a_mat b_mat innov hvar (nobs - 1)

theorem filterAux_zero_slot {K : Type} [CommRing K] {n : ℕ} (cc amat bmat : Mat K n)
    (innov : ℕ → Fin n → K) (hvar : ℕ → Mat K n) (k : ℕ) :
    filterAux cc amat bmat innov hvar k 0 = hvar 0 := by
  induction k with
  | zero => rfl
  | succ i ih =>
    rw [filterAux, Function.update_noteq (by omega : (0 : ℕ) ≠ i + 1)]
    exact ih

theorem filterAux_gt {K : Type} [CommRing K] {n : ℕ} (cc amat bmat : Mat K n)
    (innov : ℕ → Fin n → K) (hvar : ℕ → Mat K n) (k j : ℕ) (h : k < j) :
    filterAux cc amat bmat innov hvar k j = hvar j := by
  induction k with
  | zero => rfl
  | succ i ih =>
    rw [filterAux, Function.update_noteq (by omega : j ≠ i + 1)]
    exact ih (by omega)

theorem filterAux_stable {K : Type} [CommRing K] {n : ℕ} (cc amat bmat : Mat K n)
    (innov : ℕ → Fin n → K) (hvar : ℕ → Mat K n) (k t : ℕ) (ht : t ≤ k) :
    filterAux cc amat bmat innov hvar k t = filterAux cc amat bmat innov hvar t t := by
  induction k with
  | zero => rw [Nat.le_zero.mp ht]
  | succ i ih =>
    rcases Nat.lt_or_ge t (i + 1) with hlt | hge
    · rw [filterAux, Function.update_noteq (by omega : t ≠ i + 1)]
      exact ih (by omega)
    · rw [Nat.le_antisymm ht hge]

theorem filterAux_succ_self {K : Type} [CommRing K] {n : ℕ} (cc amat bmat : Mat K n)
    (innov : ℕ → Fin n → K) (hvar : ℕ → Mat K n) (i : ℕ) :
    filterAux cc amat bmat innov hvar (i + 1) (i + 1) =
      cc + amat * outerProd (innov i) * amatᵀ
        + bmat * filterAux cc amat bmat innov hvar i i * bmatᵀ := by
  rw [filterAux, Function.update_same]

/-- C2. The covariance filter fills slot t, for every t with 1 ≤ t < nobs,
with exactly CCᵀ + A (u[t-1] u[t-1]ᵀ) Aᵀ + B H[t-1] Bᵀ, where H[t-1] is the
content of slot t-1 after the filter has run: each step depends only on the
immediately preceding covariance slot and the previous innovation outer
product. -/
theorem filter_var_recursion {K : Type} [CommRing K] {n : ℕ} (nobs : ℕ)
    (hvar : ℕ → Mat K n) (innov : ℕ → Fin n → K) (c_mat a_mat b_mat : Mat K n)
    (t : ℕ) (h1 : 1 ≤ t) (h2 : t < nobs) :
    filter_var nobs hvar innov c_mat a_mat b_mat t =
      c_mat * c_matᵀ + a_mat * outerProd (innov (t - 1)) * a_matᵀ
        + b_mat * filter_var nobs hvar innov c_mat a_mat b_mat (t - 1) * b_matᵀ := by
  obtain ⟨s, rfl⟩ : ∃ s, t = s + 1 := ⟨t - 1, by omega⟩
  unfold filter_var
  have hk : s + 1 ≤ nobs - 1 := by omega
  rw [filterAux_stable _ _ _ _ _ _ _ hk, filterAux_succ_self]
  have hs : filterAux (c_mat * c_matᵀ) a_mat b_mat innov hvar (nobs - 1) (s + 1 - 1) =
      filterAux (c_mat * c_matᵀ) a_mat b_mat innov hvar s s := by
    simpa using filterAux_stable (c_mat * c_matᵀ) a_mat b_mat innov hvar (nobs - 1) s (by omega)
  rw [hs]
  simp

/-- Closed-form check of the filter recursion at a concrete input. -/
theorem filter_var_recursion_witness :
    (1 ≤ 1 ∧ 1 < 2) ∧
      filter_var (K := ℚ) (n := 1) 2 (fun _ => 0) (fun _ _ => 0) 0 0 0 1 =
        (0 : Mat ℚ 1) * (0 : Mat ℚ 1)ᵀ
          + 0 * outerProd ((fun _ _ => 0 : ℕ → Fin 1 → ℚ) (1 - 1)) * (0 : Mat ℚ 1)ᵀ
          + 0 * filter_var (K := ℚ) (n := 1) 2 (fun _ => 0) (fun _ _ => 0) 0 0 0 (1 - 1)
            * (0 : Mat ℚ 1)ᵀ :=
  ⟨⟨le_refl 1, by omega⟩,
    filter_var_recursion 2 (fun _ => 0) (fun _ _ => 0) 0 0 0 1 (le_refl 1) (by omega)⟩

/-- C10. The covariance filter never writes the initial slot of the buffer:
slot 0, holding the H_0 block supplied by the caller, is returned unchanged,
because the recursion loop begins at time index 1. -/
theorem filter_var_initial_slot_unchanged {K : Type} [CommRing K] {n : ℕ} (nobs : ℕ)
    (hvar : ℕ → Mat K n) (innov : ℕ → Fin n → K) (c_mat a_mat b_mat : Mat K n) :
    filter_var nobs hvar innov c_mat a_mat b_mat 0 = hvar 0 :=
  filterAux_zero_slot _ _ _ _ _ _

/-- Default convergence tolerance of the external fixed-point solver
(scipy.optimize.fixed_point, xtol = 1e-8). -/
def scoXtol (K : Type) [LinearOrderedField K] : K := 1 / 10 ^ 8

/-- Default iteration bound of the external fixed-point solver
(scipy.optimize.fixed_point, maxiter = 500). -/
def scoMaxiter : ℕ := 500

/-- Modelled from the spec: scipy.optimize.fixed_point, the external solver
called by ParamGeneric.find_stationary_var, is not code of this repository.
Per the spec it iterates the map from the seed to a convergence tolerance with
a bounded iteration count: an iterate whose fixed-point residual is entrywise
within the tolerance is returned, and exhausting the iteration bound without
convergence raises RuntimeError, modelled by none. -/
def sco_fixed_point {K : Type} [LinearOrderedField K] {n : ℕ} (f : Mat K n → Mat K n)
    (xtol : K) : ℕ → Mat K n → Option (Mat K n)
  | 0, _ => none
  | m + 1, p0 =>
    if ∀ i j, |f (f p0) i j - f p0 i j| ≤ xtol then some (f p0)
    else sco_fixed_point f xtol m (f p0)

/-- Embedding of the static method ParamGeneric.fixed_point: the relaxed map
uvar ↦ 2 uvar - ccmat - A uvar Aᵀ - B uvar Bᵀ whose fixed points characterize
the unconditional variance. -/
def ParamGeneric.fixed_point {K : Type} [CommRing K] {n : ℕ}
    (uvar amat bmat ccmat : Mat K n) : Mat K n :=
  2 • uvar - ccmat - amat * uvar * amatᵀ - bmat * uvar * bmatᵀ

/-- Embedding of ParamGeneric.find_stationary_var: the fixed-point map with
ccmat = cmat cmatᵀ is handed to the solver seeded at the identity matrix, and
a RuntimeError from the solver is converted to None. -/
def ParamGeneric.find_stationary_var {K : Type} [LinearOrderedField K] {n : ℕ}
    (amat bmat cmat : Mat K n) : Option (Mat K n) :=
  sco_fixed_point (fun uvar => ParamGeneric.fixed_point uvar amat bmat (cmat * cmatᵀ))
    (scoXtol K) scoMaxiter 1

theorem fixed_point_sub_self {K : Type} [CommRing K] {n : ℕ}
    (uvar amat bmat ccmat : Mat K n) :
    ParamGeneric.fixed_point uvar amat bmat ccmat - uvar =
      uvar - (ccmat + amat * uvar * amatᵀ + bmat * uvar * bmatᵀ) := by
  unfold ParamGeneric.fixed_point
  rw [two_smul]
  abel

theorem fixed_point_fixed_iff {K : Type} [CommRing K] {n : ℕ}
    (uvar amat bmat ccmat : Mat K n) :
    ParamGeneric.fixed_point uvar amat bmat ccmat = uvar ↔
      uvar = ccmat + amat * uvar * amatᵀ + bmat * uvar * bmatᵀ := by
  rw [← sub_eq_zero, fixed_point_sub_self, sub_eq_zero]

theorem sco_fixed_point_residual {K : Type} [LinearOrderedField K] {n : ℕ}
    (f : Mat K n → Mat K n) (xtol : K) (m : ℕ) (p0 H : Mat K n)
    (h : sco_fixed_point f xtol m p0 = some H) :
    ∀ i j, |f H i j - H i j| ≤ xtol := by
  induction m generalizing p0 with
  | zero => exact absurd h (by simp [sco_fixed_point])
  | succ m ih =>
    rw [sco_fixed_point] at h
    by_cases hc : ∀ i j, |f (f p0) i j - f p0 i j| ≤ xtol
    · rw [if_pos hc] at h
      obtain rfl : f p0 = H := Option.some.inj h
      exact hc
    · rw [if_neg hc] at h
      exact ih _ h

theorem sco_fixed_point_none_iff {K : Type} [LinearOrderedField K] {n : ℕ}
    (f : Mat K n → Mat K n) (xtol : K) (m : ℕ) (p0 : Mat K n) :
    sco_fixed_point f xtol m p0 = none ↔
      ∀ k < m, ¬ ∀ i j, |f (f^[k + 1] p0) i j - f^[k + 1] p0 i j| ≤ xtol := by
  induction m generalizing p0 with
  | zero => simp [sco_fixed_point]
  | succ m ih =>
    rw [sco_fixed_point]
    by_cases hc : ∀ i j, |f (f p0) i j - f p0 i j| ≤ xtol
    · rw [if_pos hc]
      constructor
      · intro h
        exact absurd h (by simp)
      · intro h
        exact absurd (by simpa using hc) (h 0 (by omega))
    · rw [if_neg hc, ih]
      constructor
      · intro h k hk
        match k with
        | 0 => simpa using hc
        | k + 1 =>
          have := h k (by omega)
          rwa [← Function.iterate_succ_apply] at this
      · intro h k hk
        have := h (k + 1) (by omega)
        rwa [Function.iterate_succ_apply] at this

/-- C6. The unconditional-variance solver iterates the relaxed map
H ↦ 2H - CCᵀ - AHAᵀ - BHBᵀ seeded at the identity matrix; a matrix is a fixed
point of this map exactly when it solves H = CCᵀ + AHAᵀ + BHBᵀ; consequently
every matrix the solver returns satisfies the unconditional-variance equation
entrywise within the tolerance; and the solver returns None, not a default
matrix, exactly when no iterate within the iteration bound converges. -/
theorem find_stationary_var_spec {K : Type} [LinearOrderedField K] {n : ℕ}
    (amat bmat cmat : Mat K n) :
    (ParamGeneric.find_stationary_var amat bmat cmat =
        sco_fixed_point
          (fun uvar => ParamGeneric.fixed_point uvar amat bmat (cmat * cmatᵀ))
          (scoXtol K) scoMaxiter (1 : Mat K n))
    ∧ (∀ uvar : Mat K n,
        ParamGeneric.fixed_point uvar amat bmat (cmat * cmatᵀ) = uvar ↔
          uvar = cmat * cmatᵀ + amat * uvar * amatᵀ + bmat * uvar * bmatᵀ)
    ∧ (∀ H : Mat K n, ParamGeneric.find_stationary_var amat bmat cmat = some H →
        ∀ i j, |H i j - (cmat * cmatᵀ + amat * H * amatᵀ + bmat * H * bmatᵀ) i j|
          ≤ scoXtol K)
    ∧ (ParamGeneric.find_stationary_var amat bmat cmat = none ↔
        ∀ k < scoMaxiter, ¬ ∀ i j,
          |ParamGeneric.fixed_point
              ((fun uvar => ParamGeneric.fixed_point uvar amat bmat (cmat * cmatᵀ))^[k + 1]
                (1 : Mat K n)) amat bmat (cmat * cmatᵀ) i j
            - (fun uvar => ParamGeneric.fixed_point uvar amat bmat (cmat * cmatᵀ))^[k + 1]
              (1 : Mat K n) i j| ≤ scoXtol K) := by
  refine ⟨rfl, fun uvar => fixed_point_fixed_iff uvar amat bmat (cmat * cmatᵀ), ?_, ?_⟩
  · intro H h i j
    have hres := sco_fixed_point_residual
      (fun uvar => ParamGeneric.fixed_point uvar amat bmat (cmat * cmatᵀ))
      (scoXtol K) scoMaxiter 1 H h i j
    have key := fixed_point_sub_self H amat bmat (cmat * cmatᵀ)
    calc |H i j - (cmat * cmatᵀ + amat * H * amatᵀ + bmat * H * bmatᵀ) i j|
        = |(H - (cmat * cmatᵀ + amat * H * amatᵀ + bmat * H * bmatᵀ)) i j| := by
          rw [Matrix.sub_apply]
      _ = |(ParamGeneric.fixed_point H amat bmat (cmat * cmatᵀ) - H) i j| := by rw [key]
      _ ≤ scoXtol K := by
          rw [Matrix.sub_apply]
          exact hres
  · exact sco_fixed_point_none_iff
      (fun uvar => ParamGeneric.fixed_point uvar amat bmat (cmat * cmatᵀ))
      (scoXtol K) scoMaxiter 1


/-- Closed-form check of the solver embedding at a concrete input. -/
theorem find_stationary_var_spec_witness :
    ParamGeneric.find_stationary_var (K := ℚ) (n := 1) 0 0 0 =
      sco_fixed_point
        (fun uvar => ParamGeneric.fixed_point uvar 0 0 ((0 : Mat ℚ 1) * (0 : Mat ℚ 1)ᵀ))
        (scoXtol ℚ) scoMaxiter (1 : Mat ℚ 1) :=
  (find_stationary_var_spec 0 0 0).1

/-- Fold of the binary maximum over a multiset with initial value 0: the value
numpy.abs(eigvals).max() computes on the multiset of eigenvalue magnitudes,
all of which are nonnegative. -/
def multisetMax0 (s : Multiset ℝ) : ℝ :=
  Multiset.foldr max 0 s

theorem le_multisetMax0 (s : Multiset ℝ) (x : ℝ) (hx : x ∈ s) : x ≤ multisetMax0 s := by
  induction s using Multiset.induction_on with
  | empty => exact absurd hx (Multiset.not_mem_zero x)
  | cons a t ih =>
    rw [multisetMax0, Multiset.foldr_cons]
    rcases Multiset.mem_cons.mp hx with rfl | hxt
    · exact le_max_left _ _
    · exact le_trans (ih hxt) (le_max_right _ _)

theorem multisetMax0_nonneg (s : Multiset ℝ) : 0 ≤ multisetMax0 s := by
  induction s using Multiset.induction_on with
  | empty => exact le_refl 0
  | cons a t ih =>
    rw [multisetMax0, Multiset.foldr_cons]
    exact le_trans ih (le_max_right _ _)

theorem multisetMax0_le (s : Multiset ℝ) (c : ℝ) (hc : 0 ≤ c)
    (h : ∀ x ∈ s, x ≤ c) : multisetMax0 s ≤ c := by
  induction s using Multiset.induction_on with
  | empty => exact hc
  | cons a t ih =>
    rw [multisetMax0, Multiset.foldr_cons]
    exact max_le (h a (Multiset.mem_cons_self a t))
      (ih fun x hx => h x (Multiset.mem_cons_of_mem hx))

theorem multisetMax0_mem (s : Multiset ℝ) (hs : s ≠ 0)
    (hnn : ∀ x ∈ s, 0 ≤ x) : multisetMax0 s ∈ s := by
  induction s using Multiset.induction_on with
  | empty => exact absurd rfl hs
  | cons a t ih =>
    rw [multisetMax0, Multiset.foldr_cons]
    rcases eq_or_ne t 0 with rfl | ht
    · rw [Multiset.foldr_zero, max_eq_left (hnn a (Multiset.mem_cons_self a 0))]
      exact Multiset.mem_cons_self a 0
    · rcases le_total (multisetMax0 t) a with hle | hle
      · have h1 : max a (Multiset.foldr max 0 t) = a := max_eq_left hle
        rw [h1]
        exact Multiset.mem_cons_self a t
      · have h1 : max a (Multiset.foldr max 0 t) = Multiset.foldr max 0 t := max_eq_right hle
        rw [h1]
        exact Multiset.mem_cons_of_mem
          (ih ht fun x hx => hnn x (Multiset.mem_cons_of_mem hx))

/-- Kronecker-sum matrix K = A⊗A + B⊗B built in ParamGeneric.constraint via
numpy.kron. -/
def kronSum {n : ℕ} (amat bmat : Mat ℝ n) : Matrix (Fin n × Fin n) (Fin n × Fin n) ℝ :=
  Matrix.kroneckerMap (· * ·) amat amat + Matrix.kroneckerMap (· * ·) bmat bmat

/-- Embedding of the body of ParamGeneric.constraint: the largest magnitude of
an eigenvalue of A⊗A + B⊗B, the eigenvalues being the complex roots of the
characteristic polynomial (numpy.abs(scipy.linalg.eigvals(K)).max()). -/
noncomputable def specScore {n : ℕ} (amat bmat : Mat ℝ n) : ℝ :=
  multisetMax0
    ((((kronSum amat bmat).map Complex.ofReal).charpoly.roots).map fun z => Complex.abs z)

/-- Parameters of the BEKK model as held by ParamGeneric and its subclass
BEKKParams: the matrices A and B, and the matrix C, which is None when the
Cholesky-based derivation of C failed. -/
structure ParamGeneric (n : ℕ) : Type where
  amat : Mat ℝ n
  bmat : Mat ℝ n
  cmat : Option (Mat ℝ n)

/-- Embedding of the method ParamGeneric.constraint. -/
noncomputable def ParamGeneric.constraint {n : ℕ} (p : ParamGeneric n) : ℝ :=
  specScore p.amat p.bmat

/-- Modelled from the spec: the stationarity of the BEKK model with parameter
matrices A and B, characterized in the spec by every eigenvalue of the
Kronecker-sum matrix K = A⊗A + B⊗B having magnitude below one. -/
def specStationary {n : ℕ} (amat bmat : Mat ℝ n) : Prop :=
  ∀ μ ∈ spectrum ℂ ((kronSum amat bmat).map Complex.ofReal), Complex.abs μ < 1

theorem charpoly_eval_det {m : Type} [Fintype m] [DecidableEq m]
    (M : Matrix m m ℂ) (x : ℂ) :
    M.charpoly.eval x = (Matrix.scalar m x - M).det := by
  have h1 : M.charpoly.eval x = ((Matrix.charmatrix M).map (Polynomial.evalRingHom x)).det := by
    rw [Matrix.charpoly]
    have h2 : Polynomial.eval x (Matrix.charmatrix M).det
        = (Polynomial.evalRingHom x) (Matrix.charmatrix M).det := rfl
    rw [h2, RingHom.map_det, RingHom.mapMatrix_apply]
  rw [h1]
  congr 1
  ext i j
  rcases eq_or_ne i j with rfl | hij
  · simp [Matrix.charmatrix_apply_eq, Matrix.scalar_apply]
  · simp [Matrix.charmatrix_apply_ne _ _ _ hij, Matrix.scalar_apply,
      Matrix.diagonal_apply_ne _ hij]

theorem mem_spectrum_iff_isRoot {m : Type} [Fintype m] [DecidableEq m]
    (M : Matrix m m ℂ) (z : ℂ) :
    z ∈ spectrum ℂ M ↔ M.charpoly.IsRoot z := by
  rw [spectrum.mem_iff, Polynomial.IsRoot, charpoly_eval_det]
  have halg : algebraMap ℂ (Matrix m m ℂ) z = Matrix.scalar m z := rfl
  rw [halg, Matrix.isUnit_iff_isUnit_det, isUnit_iff_ne_zero]
  exact not_not

theorem mem_spectrum_iff_mem_roots {m : Type} [Fintype m] [DecidableEq m]
    (M : Matrix m m ℂ) (z : ℂ) :
    z ∈ spectrum ℂ M ↔ z ∈ M.charpoly.roots := by
  rw [mem_spectrum_iff_isRoot, Polynomial.mem_roots (M.charpoly_monic.ne_zero)]

theorem specScore_bound {n : ℕ} (amat bmat : Mat ℝ n) (μ : ℂ)
    (hμ : μ ∈ spectrum ℂ ((kronSum amat bmat).map Complex.ofReal)) :
    Complex.abs μ ≤ specScore amat bmat := by
  refine le_multisetMax0 _ _ ?_
  rw [Multiset.mem_map]
  exact ⟨μ, (mem_spectrum_iff_mem_roots _ μ).mp hμ, rfl⟩

theorem specScore_attained {n : ℕ} (hn : 0 < n) (amat bmat : Mat ℝ n) :
    ∃ μ ∈ spectrum ℂ ((kronSum amat bmat).map Complex.ofReal),
      Complex.abs μ = specScore amat bmat := by
  set p := ((kronSum amat bmat).map Complex.ofReal).charpoly with hp
  have hdeg : 0 < p.natDegree := by
    rw [hp, Matrix.charpoly_natDegree_eq_dim]
    simpa [Fintype.card_prod] using Nat.mul_pos hn hn
  obtain ⟨z, hz⟩ := Complex.exists_root (Polynomial.natDegree_pos_iff_degree_pos.mp hdeg)
  have hzr : z ∈ p.roots := by
    rw [Polynomial.mem_roots ((Matrix.charpoly_monic _).ne_zero)]
    exact hz
  have hne : (p.roots.map fun w => Complex.abs w) ≠ 0 := by
    intro h0
    have : Complex.abs z ∈ (p.roots.map fun w => Complex.abs w) :=
      Multiset.mem_map.mpr ⟨z, hzr, rfl⟩
    rw [h0] at this
    exact Multiset.not_mem_zero _ this
  have hmem := multisetMax0_mem (p.roots.map fun w => Complex.abs w) hne
    (by
      intro x hx
      obtain ⟨w, _, rfl⟩ := Multiset.mem_map.mp hx
      exact AbsoluteValue.nonneg Complex.abs w)
  obtain ⟨μ, hμr, hμe⟩ := Multiset.mem_map.mp hmem
  exact ⟨μ, (mem_spectrum_iff_mem_roots _ μ).mpr hμr, hμe⟩

/-- C4. The constraint method returns the largest eigenvalue magnitude of the
Kronecker-sum matrix A⊗A + B⊗B: it is an upper bound of the spectrum
magnitudes, it is attained by some eigenvalue, and the spec characterization
of stationarity holds exactly when this score is strictly below one. -/
theorem constraint_spec {n : ℕ} (hn : 0 < n) (p : ParamGeneric n) :
    (∀ μ ∈ spectrum ℂ ((kronSum p.amat p.bmat).map Complex.ofReal),
        Complex.abs μ ≤ p.constraint)
    ∧ (∃ μ ∈ spectrum ℂ ((kronSum p.amat p.bmat).map Complex.ofReal),
        Complex.abs μ = p.constraint)
    ∧ (specStationary p.amat p.bmat ↔ p.constraint < 1) := by
  refine ⟨fun μ hμ => specScore_bound p.amat p.bmat μ hμ,
    specScore_attained hn p.amat p.bmat, ?_, ?_⟩
  · intro hst
    obtain ⟨μ, hμs, hμe⟩ := specScore_attained hn p.amat p.bmat
    rw [ParamGeneric.constraint, ← hμe]
    exact hst μ hμs
  · intro hlt μ hμ
    exact lt_of_le_of_lt (specScore_bound p.amat p.bmat μ hμ) hlt

/-- Closed-form check of the constraint characterization at a concrete input. -/
theorem constraint_spec_witness :
    (∀ μ ∈ spectrum ℂ ((kronSum (0 : Mat ℝ 1) 0).map Complex.ofReal),
        Complex.abs μ ≤ (ParamGeneric.mk (0 : Mat ℝ 1) 0 none).constraint)
    ∧ (∃ μ ∈ spectrum ℂ ((kronSum (0 : Mat ℝ 1) 0).map Complex.ofReal),
        Complex.abs μ = (ParamGeneric.mk (0 : Mat ℝ 1) 0 none).constraint)
    ∧ (specStationary (0 : Mat ℝ 1) 0 ↔ (ParamGeneric.mk (0 : Mat ℝ 1) 0 none).constraint < 1) :=
  constraint_spec (by omega) (ParamGeneric.mk 0 0 none)


section CholeskySection

variable {I : Type} [Fintype I] [LinearOrder I] [WellFoundedLT I] [LocallyFiniteOrderBot I]

/-- Lower-triangular predicate for square matrices: all entries strictly above
the diagonal vanish. -/
def lowerTriangular (M : Matrix I I ℝ) : Prop :=
  ∀ i j : I, i < j → M i j = 0

theorem ldlDiagEntries_pos {M : Matrix I I ℝ} (h : M.PosDef) (i : I) :
    0 < LDL.diagEntries h i := by
  have hrow : LDL.lowerInv h i ≠ 0 := by
    intro h0
    have hdet : (LDL.lowerInv h).det = 0 :=
      Matrix.det_eq_zero_of_row_eq_zero i (congrFun h0)
    exact (Matrix.isUnit_det_of_invertible (LDL.lowerInv h)).ne_zero hdet
  have hx : star (LDL.lowerInv h i) ≠ 0 := by
    simpa [star_eq_zero] using hrow
  have hpos := h.2 (star (LDL.lowerInv h i)) hx
  simpa [LDL.diagEntries, EuclideanSpace.inner_piLp_equiv_symm] using hpos

/-- Lower Cholesky factor of a positive definite real matrix, assembled from
the LDL decomposition as L sqrt(D). -/
noncomputable def cholFactor {M : Matrix I I ℝ} (h : M.PosDef) : Matrix I I ℝ :=
  LDL.lower h * Matrix.diagonal fun i => Real.sqrt (LDL.diagEntries h i)

theorem cholFactor_lowerTriangular {M : Matrix I I ℝ} (h : M.PosDef) :
    lowerTriangular (cholFactor h) := by
  have hinv : Matrix.BlockTriangular (LDL.lowerInv h) OrderDual.toDual := by
    intro i j hij
    exact LDL.lowerInv_triangular h hij
  have hlow : Matrix.BlockTriangular (LDL.lower h) OrderDual.toDual :=
    Matrix.blockTriangular_inv_of_blockTriangular hinv
  have hdiag : Matrix.BlockTriangular
      (Matrix.diagonal fun i => Real.sqrt (LDL.diagEntries h i)) OrderDual.toDual :=
    Matrix.blockTriangular_diagonal _
  intro i j hij
  exact (hlow.mul hdiag) hij

theorem cholFactor_mul_self_transpose {M : Matrix I I ℝ} (h : M.PosDef) :
    cholFactor h * (cholFactor h)ᵀ = M := by
  have hfun : (fun i => Real.sqrt (LDL.diagEntries h i) * Real.sqrt (LDL.diagEntries h i))
      = LDL.diagEntries h :=
    funext fun i => Real.mul_self_sqrt (le_of_lt (ldlDiagEntries_pos h i))
  have hsq : (Matrix.diagonal fun i => Real.sqrt (LDL.diagEntries h i))
      * (Matrix.diagonal fun i => Real.sqrt (LDL.diagEntries h i)) = LDL.diag h := by
    rw [Matrix.diagonal_mul_diagonal, hfun, LDL.diag]
  have htr : (LDL.lower h)ᵀ = (LDL.lower h)ᴴ :=
    (Matrix.conjTranspose_eq_transpose_of_trivial _).symm
  calc cholFactor h * (cholFactor h)ᵀ
      = LDL.lower h
          * ((Matrix.diagonal fun i => Real.sqrt (LDL.diagEntries h i))
            * ((Matrix.diagonal fun i => Real.sqrt (LDL.diagEntries h i))ᵀ
              * (LDL.lower h)ᵀ)) := by
        simp only [cholFactor, Matrix.transpose_mul, Matrix.mul_assoc]
    _ = LDL.lower h * LDL.diag h * (LDL.lower h)ᴴ := by
        rw [Matrix.diagonal_transpose, ← Matrix.mul_assoc
          (Matrix.diagonal fun i => Real.sqrt (LDL.diagEntries h i)), hsq, htr,
          Matrix.mul_assoc]
    _ = M := LDL.lower_conj_diag h

open Classical in
/-- Modelled semantics of scipy.linalg.cholesky(x, lower=1), the external
routine called by ParamGeneric.find_cmat, whose source is not part of this
repository: in exact arithmetic the factorization succeeds exactly on positive
definite inputs, returning the lower Cholesky factor, and raises LinAlgError
otherwise. -/
noncomputable def scipyCholesky (M : Matrix I I ℝ) : Option (Matrix I I ℝ) :=
  if h : M.PosDef then some (cholFactor h) else none

/-- Embedding of the static method ParamGeneric.find_cmat: the right-hand side
ccmat = target - A target Aᵀ - B target Bᵀ is factorized by the lower Cholesky
routine, and a LinAlgError is converted to None. -/
noncomputable def ParamGeneric.find_cmat (amat bmat target : Matrix I I ℝ) :
    Option (Matrix I I ℝ) :=
  scipyCholesky (target - amat * target * amatᵀ - bmat * target * bmatᵀ)

/-- C5. The derivation of the C matrix returns a lower-triangular C with
C Cᵀ = target - A target Aᵀ - B target Bᵀ whenever that right-hand side is
positive definite, and returns None, rather than raising, when the
factorization fails. -/
theorem find_cmat_spec (amat bmat target : Matrix I I ℝ) :
    ((target - amat * target * amatᵀ - bmat * target * bmatᵀ).PosDef →
      ∃ C, ParamGeneric.find_cmat amat bmat target = some C ∧ lowerTriangular C ∧
        C * Cᵀ = target - amat * target * amatᵀ - bmat * target * bmatᵀ)
    ∧ (¬ (target - amat * target * amatᵀ - bmat * target * bmatᵀ).PosDef →
      ParamGeneric.find_cmat amat bmat target = none) := by
  constructor
  · intro h
    refine ⟨cholFactor h, ?_, cholFactor_lowerTriangular h, cholFactor_mul_self_transpose h⟩
    rw [ParamGeneric.find_cmat, scipyCholesky, dif_pos h]
  · intro h
    rw [ParamGeneric.find_cmat, scipyCholesky, dif_neg h]

end CholeskySection

/-- Specialization of ParamGeneric.find_cmat to Fin-indexed matrices, with the
order-theoretic instances of Fin pinned explicitly. -/
noncomputable def find_cmatF {n : ℕ} (amat bmat target : Mat ℝ n) : Option (Mat ℝ n) :=
  @ParamGeneric.find_cmat (Fin n) _ Fin.instLinearOrder
    (inferInstance : WellFoundedLT (Fin n)) (inferInstance : LocallyFiniteOrderBot (Fin n))
    amat bmat target

/-- Closed-form check of the C derivation on a positive definite right-hand
side. -/
theorem find_cmat_spec_witness :
    ∃ C, find_cmatF (0 : Mat ℝ 1) 0 1 = some C ∧
      (∀ i j : Fin 1, i < j → C i j = 0) ∧
      C * Cᵀ = (1 : Mat ℝ 1) - 0 * 1 * (0 : Mat ℝ 1)ᵀ - 0 * 1 * (0 : Mat ℝ 1)ᵀ :=
  (@find_cmat_spec (Fin 1) _ Fin.instLinearOrder
      (inferInstance : WellFoundedLT (Fin 1)) (inferInstance : LocallyFiniteOrderBot (Fin 1))
      (0 : Mat ℝ 1) 0 1).1
    (by
      have h1 : (1 : Mat ℝ 1) - 0 * 1 * (0 : Mat ℝ 1)ᵀ - 0 * 1 * (0 : Mat ℝ 1)ᵀ = 1 := by
        simp
      rw [h1]
      exact Matrix.PosDef.one)

theorem not_posDef_zero {n : ℕ} (hn : 0 < n) : ¬ (0 : Mat ℝ n).PosDef := by
  intro h
  have hx : (fun _ => (1 : ℝ) : Fin n → ℝ) ≠ 0 := by
    intro h0
    have h1 : (1 : ℝ) = 0 := congrFun h0 ⟨0, hn⟩
    norm_num at h1
  have hpos := h.2 _ hx
  simp [Matrix.zero_mulVec] at hpos

/-- Embedding of utils.estimate_h0: the sample covariance of the innovation
series, innov.T.dot(innov) divided by the number of observations. -/
def estimate_h0 {K : Type} [Field K] {m n : ℕ} (innov : Fin m → Fin n → K) : Mat K n :=
  fun i j => (∑ t, innov t i * innov t j) / (m : K)

/-- Embedding of the variance-targeting computation in BEKK.estimate:
target = self.innov.T.dot(self.innov) / nstocks, dividing by the number of
stocks. -/
def BEKK.estimateTarget {K : Type} [Field K] {m n : ℕ} (innov : Fin m → Fin n → K) :
    Mat K n :=
  fun i j => (∑ t, innov t i * innov t j) / (n : K)


/-- C7 (divergence witness). On the innovation series [[1],[1]] (two
observations of one stock) the target computed by BEKK.estimate,
innov.T.dot(innov)/nstocks, is the matrix [[2]], while the sample covariance
estimate_h0, innov.T.dot(innov)/nobs, is [[1]]: the two disagree. -/
theorem estimateTarget_ne_estimate_h0 :
    BEKK.estimateTarget (fun _ _ => (1 : ℚ) : Fin 2 → Fin 1 → ℚ) 0 0 = 2
    ∧ estimate_h0 (fun _ _ => (1 : ℚ) : Fin 2 → Fin 1 → ℚ) 0 0 = 1
    ∧ BEKK.estimateTarget (fun _ _ => (1 : ℚ) : Fin 2 → Fin 1 → ℚ)
        ≠ estimate_h0 (fun _ _ => (1 : ℚ) : Fin 2 → Fin 1 → ℚ) := by
  have h1 : BEKK.estimateTarget (fun _ _ => (1 : ℚ) : Fin 2 → Fin 1 → ℚ) 0 0 = 2 := by
    rw [BEKK.estimateTarget, Fin.sum_univ_two]
    norm_num
  have h2 : estimate_h0 (fun _ _ => (1 : ℚ) : Fin 2 → Fin 1 → ℚ) 0 0 = 1 := by
    rw [estimate_h0, Fin.sum_univ_two]
    norm_num
  refine ⟨h1, h2, fun h => ?_⟩
  have h3 := congrFun (congrFun h 0) 0
  rw [h1, h2] at h3
  norm_num at h3

theorem find_cmatF_zero_target {n : ℕ} (hn : 0 < n) (amat bmat : Mat ℝ n) :
    find_cmatF amat bmat 0 = none := by
  have hM : (0 : Mat ℝ n) - amat * 0 * amatᵀ - bmat * 0 * bmatᵀ = 0 := by
    simp
  have h2 := (@find_cmat_spec (Fin n) _ Fin.instLinearOrder
      (inferInstance : WellFoundedLT (Fin n)) (inferInstance : LocallyFiniteOrderBot (Fin n))
      amat bmat 0).2
  rw [find_cmatF]
  apply h2
  rw [hM]
  exact not_posDef_zero hn

theorem charpoly_zero_matrix {I : Type} [Fintype I] [DecidableEq I] :
    (0 : Matrix I I ℂ).charpoly = X ^ Fintype.card I := by
  rw [Matrix.charpoly]
  have hcm : Matrix.charmatrix (0 : Matrix I I ℂ)
      = Matrix.diagonal fun _ => (X : Polynomial ℂ) := by
    ext i j
    rcases eq_or_ne i j with rfl | hij
    · simp [Matrix.charmatrix_apply_eq]
    · simp [Matrix.charmatrix_apply_ne _ _ _ hij, Matrix.diagonal_apply_ne _ hij]
  rw [hcm, Matrix.det_diagonal, Finset.prod_const, Finset.card_univ]

theorem multisetMax0_replicate_zero (m : ℕ) :
    multisetMax0 (Multiset.replicate m (0 : ℝ)) = 0 := by
  refine le_antisymm (multisetMax0_le _ 0 (le_refl 0) ?_) (multisetMax0_nonneg _)
  intro x hx
  rw [Multiset.eq_of_mem_replicate hx]

theorem specScore_zero {n : ℕ} : specScore (0 : Mat ℝ n) 0 = 0 := by
  have hk : kronSum (0 : Mat ℝ n) 0 = 0 := by
    ext p q
    simp [kronSum, Matrix.kroneckerMap]
  have hmap : ((0 : Matrix (Fin n × Fin n) (Fin n × Fin n) ℝ).map Complex.ofReal) = 0 := by
    ext p q
    simp
  rw [specScore, hk, hmap, charpoly_zero_matrix, Polynomial.roots_pow, Polynomial.roots_X,
    Multiset.nsmul_singleton, Multiset.map_replicate]
  simpa using multisetMax0_replicate_zero _

theorem constraint_mk_zero {n : ℕ} (c : Option (Mat ℝ n)) :
    (ParamGeneric.mk (0 : Mat ℝ n) 0 c).constraint = 0 :=
  specScore_zero

/-- C9 (amended). An all-zero innovation series yields the zero matrix as the
derived target (both for estimate_h0 and for the target computed in
BEKK.estimate); deriving C from any A, B and the zero target fails the
Cholesky factorization and yields the infeasibility flag None; and the
constraint score does not depend on the derived C at all, so it equals the
largest eigenvalue magnitude of A⊗A + B⊗B alone. -/
theorem zero_innovation_series_spec {m n : ℕ} (hn : 0 < n) (amat bmat : Mat ℝ n) :
    estimate_h0 (fun _ _ => (0 : ℝ) : Fin m → Fin n → ℝ) = 0
    ∧ BEKK.estimateTarget (fun _ _ => (0 : ℝ) : Fin m → Fin n → ℝ) = 0
    ∧ find_cmatF amat bmat 0 = none
    ∧ ∀ c1 c2 : Option (Mat ℝ n),
        (ParamGeneric.mk amat bmat c1).constraint = (ParamGeneric.mk amat bmat c2).constraint := by
  refine ⟨?_, ?_, find_cmatF_zero_target hn amat bmat, fun c1 c2 => rfl⟩
  · funext i j
    simp [estimate_h0]
  · funext i j
    simp [BEKK.estimateTarget]

/-- Closed-form check of the zero-innovation behavior at a concrete input. -/
theorem zero_innovation_series_spec_witness :
    estimate_h0 (fun _ _ => (0 : ℝ) : Fin 2 → Fin 1 → ℝ) = 0
    ∧ BEKK.estimateTarget (fun _ _ => (0 : ℝ) : Fin 2 → Fin 1 → ℝ) = 0
    ∧ find_cmatF (0 : Mat ℝ 1) 0 0 = none
    ∧ ∀ c1 c2 : Option (Mat ℝ 1),
        (ParamGeneric.mk (0 : Mat ℝ 1) 0 c1).constraint
          = (ParamGeneric.mk (0 : Mat ℝ 1) 0 c2).constraint :=
  zero_innovation_series_spec (by omega) 0 0

/-- C9 (counterexample to the claim as stated). With a zero innovation series
of two observations of one stock, the derived target is the zero matrix, and
find_cmat on it returns None, the infeasibility flag, not the zero matrix the
claim expects. -/
theorem find_cmat_zero_innovations_counterexample :
    find_cmatF (0 : Mat ℝ 1) 0 (estimate_h0 (fun _ _ => (0 : ℝ) : Fin 2 → Fin 1 → ℝ)) = none
    ∧ find_cmatF (0 : Mat ℝ 1) 0 (estimate_h0 (fun _ _ => (0 : ℝ) : Fin 2 → Fin 1 → ℝ))
        ≠ some 0 := by
  have h0 : estimate_h0 (fun _ _ => (0 : ℝ) : Fin 2 → Fin 1 → ℝ) = 0 := by
    funext i j
    simp [estimate_h0]
  have hnone : find_cmatF (0 : Mat ℝ 1) 0
      (estimate_h0 (fun _ _ => (0 : ℝ) : Fin 2 → Fin 1 → ℝ)) = none := by
    rw [h0]
    exact find_cmatF_zero_target (by omega) 0 0
  refine ⟨hnone, ?_⟩
  rw [hnone]
  simp


/-- Embedding of utils.likelihood. The code factors the assembled covariance
matrix once with scipy.sparse.linalg.splu (an external routine not part of
this repository, modelled by its exact-arithmetic contract), takes the
log-determinant as the sum of the logarithms of the absolute values of the
diagonal of the U factor, which for a nonsingular matrix equals
log |det hvar|, and obtains the quadratic form by solving hvar x = innov with
the same factorization, which equals the inverse applied to innov; the NaN
filter on the diagonal is vacuous in exact arithmetic. -/
noncomputable def utils.likelihood {I : Type} [Fintype I] [DecidableEq I]
    (hvar : Matrix I I ℝ) (innov : I → ℝ) : ℝ :=
  Real.log |hvar.det| + ∑ i, hvar⁻¹.mulVec innov i * innov i

theorem blockDiagonal_inv {T n : ℕ} (H : Fin T → Mat ℝ n)
    (hdet : ∀ t, IsUnit (H t).det) :
    (Matrix.blockDiagonal H)⁻¹ = Matrix.blockDiagonal fun t => (H t)⁻¹ := by
  apply Matrix.inv_eq_right_inv
  rw [← Matrix.blockDiagonal_mul]
  have hone : (fun k => H k * (H k)⁻¹) = fun _ => (1 : Mat ℝ n) := by
    funext t
    exact Matrix.mul_nonsing_inv (H t) (hdet t)
  rw [hone]
  exact Matrix.blockDiagonal_one

theorem blockDiagonal_mulVec {T n : ℕ} (M : Fin T → Mat ℝ n)
    (v : Fin n × Fin T → ℝ) (i : Fin n) (t : Fin T) :
    (Matrix.blockDiagonal M).mulVec v (i, t) = (M t).mulVec (fun j => v (j, t)) i := by
  rw [Matrix.mulVec, Matrix.dotProduct, ← Finset.univ_product_univ, Finset.sum_product]
  rw [Matrix.mulVec, Matrix.dotProduct, Finset.sum_comm]
  have hsum : ∀ s : Fin T, ∑ j, Matrix.blockDiagonal M (i, t) (j, s) * v (j, s)
      = if s = t then ∑ j, M t i j * v (j, t) else 0 := by
    intro s
    rcases eq_or_ne s t with rfl | hst
    · simp [Matrix.blockDiagonal_apply]
    · simp [Matrix.blockDiagonal_apply, Ne.symm hst, hst]
  calc ∑ s, ∑ j, Matrix.blockDiagonal M (i, t) (j, s) * v (j, s)
      = ∑ s, if s = t then ∑ j, M t i j * v (j, t) else 0 := by
        exact Finset.sum_congr rfl fun s _ => hsum s
    _ = ∑ j, M t i j * v (j, t) := by
        rw [Finset.sum_ite_eq' Finset.univ t fun _ => ∑ j, M t i j * v (j, t)]
        simp

/-- C3. On the block-diagonal covariance matrix assembled from nonsingular
blocks H_1 .. H_T with the flattened innovation series, the likelihood
evaluator returns exactly the sum over t of log |det H_t| plus the quadratic
form u_t (H_t)⁻¹ u_t: the factorization-based log-determinant and linear solve
decompose blockwise. -/
theorem likelihood_blockDiagonal {T n : ℕ} (H : Fin T → Mat ℝ n) (u : Fin T → Fin n → ℝ)
    (hdet : ∀ t, IsUnit (H t).det) :
    utils.likelihood (Matrix.blockDiagonal H) (fun p => u p.2 p.1) =
      ∑ t, (Real.log |(H t).det| + ∑ i, (H t)⁻¹.mulVec (u t) i * u t i) := by
  rw [utils.likelihood, Finset.sum_add_distrib]
  congr 1
  · rw [Matrix.det_blockDiagonal, Finset.abs_prod, Real.log_prod]
    intro t _
    exact abs_ne_zero.mpr (hdet t).ne_zero
  · rw [blockDiagonal_inv H hdet, ← Finset.univ_product_univ, Finset.sum_product]
    rw [Finset.sum_comm]
    refine Finset.sum_congr rfl fun t _ => Finset.sum_congr rfl fun i _ => ?_
    rw [blockDiagonal_mulVec]

/-- Closed-form check of the likelihood decomposition at a concrete input. -/
theorem likelihood_blockDiagonal_witness :
    (∀ t : Fin 1, IsUnit ((fun _ => (1 : Mat ℝ 1)) t).det) ∧
      utils.likelihood (Matrix.blockDiagonal fun _ : Fin 1 => (1 : Mat ℝ 1))
          (fun p => (fun _ _ => (0 : ℝ)) p.2 p.1) =
        ∑ t : Fin 1, (Real.log |((fun _ => (1 : Mat ℝ 1)) t).det|
          + ∑ i, ((fun _ => (1 : Mat ℝ 1)) t)⁻¹.mulVec ((fun _ _ => (0 : ℝ)) t) i
            * (fun _ _ => (0 : ℝ)) t i) :=
  ⟨fun _ => by simp, likelihood_blockDiagonal (fun _ => 1) (fun _ _ => 0) fun _ => by simp⟩


/-- Embedding of the objective BEKK.likelihood from bekk.py, parametrized by
its collaborators. The construction of BEKKParams from theta and target
(module bekkparams, which is not in the sources) is abstracted as the decode
argument; the unconditional-variance solver (param.unconditional_var) and the
feasible-branch evaluation (the covariance recursion followed by the
likelihood evaluator) are passed as arguments so that the sentinel branch can
be shown not to depend on them. The feasibility test returns the sentinel
1e10 when the constraint score is at least one or the C matrix is None; in
the feasible branch a None from the solver is assigned into the float buffer
self.hvar, which raises a TypeError, modelled by the result None. -/
noncomputable def BEKK.likelihoodWith {n : ℕ}
    (decode : List ℝ → Option (Mat ℝ n) → ParamGeneric n)
    (solver : Mat ℝ n → Mat ℝ n → Mat ℝ n → Option (Mat ℝ n))
    (evalObj : Mat ℝ n → Mat ℝ n → Mat ℝ n → Mat ℝ n → ℝ)
    (theta : List ℝ) (target : Option (Mat ℝ n)) : Option ℝ :=
  match (decode theta target).cmat with
  | none => some 1e10
  | some cmat =>
    if 1 ≤ (decode theta target).constraint then some 1e10
    else
      match solver (decode theta target).amat (decode theta target).bmat cmat with
      | none => none
      | some h0 =>
        some (evalObj h0 (decode theta target).amat (decode theta target).bmat cmat)

/-- Embedding of BEKK.likelihood with its concrete collaborators: the solver
is ParamGeneric.find_stationary_var, and the feasible branch runs the
covariance recursion (filter_var) on the buffer whose slot 0 holds the
unconditional variance, then evaluates the likelihood on the block-diagonal
assembly of the filtered covariances against the flattened innovations. The
innovation series and its length are attributes of the estimator object. -/
noncomputable def BEKK.likelihood {n : ℕ} (nobs : ℕ) (innov : ℕ → Fin n → ℝ)
    (decode : List ℝ → Option (Mat ℝ n) → ParamGeneric n)
    (theta : List ℝ) (target : Option (Mat ℝ n)) : Option ℝ :=
  BEKK.likelihoodWith decode ParamGeneric.find_stationary_var
    (fun h0 amat bmat cmat =>
      utils.likelihood
        (Matrix.blockDiagonal fun t : Fin nobs =>
          filter_var nobs (fun k => if k = 0 then h0 else 0) innov cmat amat bmat t.val)
        (fun p => innov p.2.val p.1))
    theta target

/-- C1. For every theta whose decoded parameters have a constraint score of at
least one or an infeasible C matrix, the objective returns the finite sentinel
1e10 for every choice of solver and feasible-branch evaluator, so neither the
covariance recursion nor the likelihood evaluator affects the result; in
particular the concrete objective returns the sentinel. -/
theorem likelihood_sentinel {n : ℕ} (nobs : ℕ) (innov : ℕ → Fin n → ℝ)
    (decode : List ℝ → Option (Mat ℝ n) → ParamGeneric n)
    (theta : List ℝ) (target : Option (Mat ℝ n))
    (h : 1 ≤ (decode theta target).constraint ∨ (decode theta target).cmat = none) :
    (∀ solver evalObj,
      BEKK.likelihoodWith decode solver evalObj theta target = some 1e10)
    ∧ BEKK.likelihood nobs innov decode theta target = some 1e10 := by
  have hgen : ∀ solver evalObj,
      BEKK.likelihoodWith decode solver evalObj theta target = some 1e10 := by
    intro solver evalObj
    rw [BEKK.likelihoodWith]
    split
    · rfl
    · rename_i cmat hc
      rcases h with h1 | h2
      · rw [if_pos h1]
      · rw [h2] at hc
        cases hc
  refine ⟨hgen, ?_⟩
  rw [BEKK.likelihood]
  exact hgen _ _

/-- Closed-form check of the sentinel branch at a concrete input with an
infeasible C matrix. -/
theorem likelihood_sentinel_witness :
    (∀ solver evalObj,
      BEKK.likelihoodWith (n := 1) (fun _ _ => ParamGeneric.mk 0 0 none) solver evalObj
        [] none = some 1e10)
    ∧ BEKK.likelihood (n := 1) 0 (fun _ _ => 0) (fun _ _ => ParamGeneric.mk 0 0 none) [] none
        = some 1e10 :=
  likelihood_sentinel (n := 1) 0 (fun _ _ => 0) (fun _ _ => ParamGeneric.mk 0 0 none) [] none
    (Or.inr rfl)

/-- C8 (code behavior at solver failure). For every decoded parameter set that
passes the feasibility test (C matrix present and constraint score below one)
but whose unconditional-variance solver returns no matrix, the objective does
not return the sentinel: the None is assigned into the float covariance
buffer, raising a TypeError into the optimizer, modelled by the result None. -/
theorem likelihood_none_on_solver_failure {n : ℕ}
    (decode : List ℝ → Option (Mat ℝ n) → ParamGeneric n)
    (solver : Mat ℝ n → Mat ℝ n → Mat ℝ n → Option (Mat ℝ n))
    (evalObj : Mat ℝ n → Mat ℝ n → Mat ℝ n → Mat ℝ n → ℝ)
    (theta : List ℝ) (target : Option (Mat ℝ n)) (c : Mat ℝ n)
    (hc : (decode theta target).cmat = some c)
    (hcon : (decode theta target).constraint < 1)
    (hs : solver (decode theta target).amat (decode theta target).bmat c = none) :
    BEKK.likelihoodWith decode solver evalObj theta target = none := by
  rw [BEKK.likelihoodWith]
  split
  · rename_i hnone
    rw [hnone] at hc
    cases hc
  · rename_i cmat hcm
    rw [hcm] at hc
    obtain rfl : cmat = c := Option.some.inj hc
    rw [if_neg (not_le.mpr hcon), hs]

/-- Closed-form check: a feasible parameter set (A = B = 0, C present, score
zero) together with a failing solver makes the objective return None, the
modelled TypeError, not the sentinel. -/
theorem likelihood_none_on_solver_failure_witness :
    BEKK.likelihoodWith (n := 1) (fun _ _ => ParamGeneric.mk 0 0 (some 1))
      (fun _ _ _ => none) (fun _ _ _ _ => 0) [] none = none :=
  likelihood_none_on_solver_failure (fun _ _ => ParamGeneric.mk 0 0 (some 1))
    (fun _ _ _ => none) (fun _ _ _ _ => 0) [] none 1 rfl
    (by
      rw [constraint_mk_zero]
      norm_num)
    rfl

